import Mathlib

/-!
Shallow embedding of the `slicesutils` Go library and proofs about it.

Go slices are modelled as Lean `List`s, Go `error` values as an explicit
`GoError` structure (`nil` error = `none`), and Go panics as an explicit
`Outcome` type: a wrapped function either returns normally (a value plus an
optional error) or exits abnormally carrying a panic value.  A Go panic value
is an arbitrary interface value; for the purposes of this library only one
distinction matters, namely whether the panic value implements the `error`
interface (the recovery wrapper performs the type assertion `r.(error)`), so
`PanicValue` records exactly that distinction.
-/

namespace SlicesUtils

open scoped List

/-- A Go `error` value (modelled by its message). -/
structure GoError where
  msg : String
deriving DecidableEq, Repr

/-- A Go panic value: either a value implementing the `error` interface, or
any other value (e.g. a plain string), described by its text. -/
inductive PanicValue where
  | errValue (e : GoError)
  | nonError (desc : String)
deriving DecidableEq, Repr

/-- Result of running a Go function body: either it returns normally with a
value and an optional error, or it exits abnormally with a panic value. -/
inductive Outcome (α : Type) where
  | ret (v : α) (e : Option GoError)
  | fault (p : PanicValue)
deriving DecidableEq, Repr

/-- Embedding of `SafeExcecute` (func_utils.go).  `zero` is the zero value of
the output type `T_out` (in Go the named return `output` starts at the zero
value and keeps it when the body panics).  The deferred recovery runs
`err = r.(error)`: if the recovered panic value implements `error` it is
returned as the error; otherwise the type assertion itself panics with a
`*runtime.TypeAssertionError` (which implements `error`), so the fault
escapes the wrapper — modelled by the `Except.error` branch. -/
def SafeExcecute (zero : α) (fnResult : Outcome α) : Except PanicValue (α × Option GoError) :=
  match fnResult with
  | .ret v e => .ok (v, e)
  | .fault (.errValue e) => .ok (zero, some e)
  | .fault (.nonError d) =>
      .error (.errValue ⟨"interface conversion: interface is not error: " ++ d⟩)

/-- Embedding of `SafeExcecuteWithStackTrace` (func_utils.go).  Identical to
`SafeExcecute` except that a recovered `error` panic value is wrapped together
with a textual stack trace (`getErrWithStackTrace` reads the runtime stack; it
is modelled by the opaque-to-us string parameter `trace`). -/
def SafeExcecuteWithStackTrace (zero : α) (trace : String) (fnResult : Outcome α) :
    Except PanicValue (α × Option GoError) :=
  match fnResult with
  | .ret v e => .ok (v, e)
  | .fault (.errValue e) =>
      .ok (zero, some ⟨"panic: " ++ e.msg ++ "\nStack trace:\n" ++ trace⟩)
  | .fault (.nonError d) =>
      .error (.errValue ⟨"interface conversion: interface is not error: " ++ d⟩)

/-- Embedding of `Max` (func_utils.go): panics (with a plain string, not an
`error` value) on an empty argument list, otherwise folds the whole list
starting from its first element, keeping the larger value. -/
def Max (elements : List Int) : Outcome Int :=
  match elements with
  | [] => .fault (.nonError "No element provided to Max")
  | e0 :: rest =>
      .ret ((e0 :: rest).foldl (fun maxValue num => if num > maxValue then num else maxValue) e0)
        none

lemma maxFold_spec (l : List Int) :
    ∀ a : Int,
      (l.foldl (fun maxValue num => if num > maxValue then num else maxValue) a = a ∨
        l.foldl (fun maxValue num => if num > maxValue then num else maxValue) a ∈ l) ∧
      a ≤ l.foldl (fun maxValue num => if num > maxValue then num else maxValue) a ∧
      ∀ y ∈ l, y ≤ l.foldl (fun maxValue num => if num > maxValue then num else maxValue) a := by
  induction l with
  | nil => intro a; exact ⟨Or.inl rfl, le_refl a, by intro y hy; cases hy⟩
  | cons x xs ih =>
    intro a
    have h := ih (if x > a then x else a)
    obtain ⟨hmem, hle, hall⟩ := h
    refine ⟨?_, ?_, ?_⟩
    · rcases hmem with h1 | h1
      · rw [List.foldl_cons, h1]
        by_cases hx : x > a
        · rw [if_pos hx]
          exact Or.inr (List.mem_cons_self x xs)
        · rw [if_neg hx]
          exact Or.inl rfl
      · exact Or.inr (List.mem_cons_of_mem x h1)
    · rw [List.foldl_cons]
      refine le_trans ?_ hle
      by_cases hx : x > a
      · rw [if_pos hx]; exact le_of_lt hx
      · rw [if_neg hx]
    · intro y hy
      rw [List.foldl_cons]
      rcases List.mem_cons.mp hy with rfl | hy
      · refine le_trans ?_ hle
        by_cases hx : y > a
        · simp [hx]
        · simp [hx]; omega
      · exact hall y hy

/-- C2: a wrapped function that completes normally has its value and error
propagated unchanged by both wrappers; a panic whose value implements `error`
is recovered, returning the zero value and a non-nil error (the trace variant
additionally wraps the message with the stack trace).  However, the claim that
this holds for ANY panic value fails: the recovery performs the type assertion
`r.(error)`, so a panic with a non-`error` value (e.g. a plain string) makes
the assertion itself panic and the fault escapes the wrapper — the last two
conjuncts evaluate both wrappers at such a failing input. -/
theorem C2_safeExcecute_recovery :
    (∀ (v : Int) (e : Option GoError) (zero : Int) (trace : String),
      SafeExcecute zero (.ret v e) = .ok (v, e) ∧
      SafeExcecuteWithStackTrace zero trace (.ret v e) = .ok (v, e)) ∧
    (∀ (e : GoError) (zero : Int), SafeExcecute zero (.fault (.errValue e)) = .ok (zero, some e)) ∧
    (∀ (e : GoError) (zero : Int) (trace : String),
      SafeExcecuteWithStackTrace zero trace (.fault (.errValue e)) =
        .ok (zero, some ⟨"panic: " ++ e.msg ++ "\nStack trace:\n" ++ trace⟩)) ∧
    SafeExcecute (0 : Int) (.fault (.nonError "boom")) =
      .error (.errValue ⟨"interface conversion: interface is not error: boom"⟩) ∧
    SafeExcecuteWithStackTrace (0 : Int) "tr" (.fault (.nonError "boom")) =
      .error (.errValue ⟨"interface conversion: interface is not error: boom"⟩) :=
  ⟨fun _ _ _ _ => ⟨rfl, rfl⟩, fun _ _ => rfl, fun _ _ _ => rfl, rfl, rfl⟩

/-- C7: `Max` with zero elements panics immediately, and for every non-empty
argument list it returns (without fault) an element of the list that bounds
every element from above.  But the panic value is the plain string
"No element provided to Max", which does NOT implement `error`, so
`SafeExcecute` around such a call does not return an error: its recovery
re-panics on the type assertion `r.(error)` and the fault escapes (second
conjunct), contradicting the claimed recoverability via the SafeCall wrapper. -/
theorem C7_max_spec :
    Max [] = .fault (.nonError "No element provided to Max") ∧
    SafeExcecute (0 : Int) (Max []) =
      .error (.errValue
        ⟨"interface conversion: interface is not error: No element provided to Max"⟩) ∧
    (∀ (x : Int) (rest : List Int), ∃ m, Max (x :: rest) = .ret m none ∧
      m ∈ x :: rest ∧ ∀ i : Nat, (x :: rest).getD i m ≤ m) := by
  refine ⟨rfl, rfl, ?_⟩
  intro x rest
  obtain ⟨hmem, _, hall⟩ := maxFold_spec (x :: rest) x
  refine ⟨_, rfl, ?_, ?_⟩
  · rcases hmem with h | h
    · rw [h]; exact List.mem_cons_self x rest
    · exact h
  · intro i
    by_cases hi : i < (x :: rest).length
    · rw [List.getD_eq_getElem _ _ hi]
      exact hall _ (List.getElem_mem hi)
    · rw [List.getD_eq_default _ _ (by omega)]

/-- Embedding of the parallel assignment `slice[i], slice[j] = slice[j], slice[i]`
with Go's bounds checks: both indices must be in range, otherwise the program
panics with an index-out-of-range runtime error (modelled as `none`). -/
def swapGo (l : List α) (i j : Int) : Option (List α) :=
  if 0 ≤ i ∧ 0 ≤ j then
    match l[i.toNat]?, l[j.toNat]? with
    | some vi, some vj => some ((l.set i.toNat vj).set j.toNat vi)
    | _, _ => none
  else none

/-- The loop of `Reverse` (func_utils.go): `for i := 0; i <= len(slice)/2; i++`
swapping positions `i` and `len(slice)-i-1`.  `n` is the slice length (swaps
preserve the length, so the repeated `len(slice)` reads all see `n`).
Note the loop bound is `i <= n/2`, not `i < n/2`, exactly as in the source. -/
def reverseGo (n : Nat) (l : List α) (i : Nat) : Option (List α) :=
  if i ≤ n / 2 then
    match swapGo l (i : Int) ((n : Int) - (i : Int) - 1) with
    | some l2 => reverseGo n l2 (i + 1)
    | none => none
  else some l
termination_by n / 2 + 1 - i
decreasing_by omega

/-- Embedding of `Reverse` (func_utils.go); `none` models an index-out-of-range
panic. -/
def Reverse (slice : List α) : Option (List α) := reverseGo slice.length slice 0

/-- C8: evaluation of `Reverse` at concrete inputs.  The loop bound `i <= len/2`
makes the function incorrect: on a slice of even length the two middle elements
are swapped twice (so `Reverse [1, 2] = [1, 2]`, not `[2, 1]`, and
`Reverse [1, 2, 3, 4] = [4, 2, 3, 1]`), and on the empty slice the first
iteration indexes `slice[-1]` and panics.  Odd lengths happen to come out
right. -/
theorem C8_reverse_eval :
    Reverse ([1, 2] : List Int) = some [1, 2] ∧
    Reverse ([] : List Int) = none ∧
    Reverse ([1, 2, 3, 4] : List Int) = some [4, 2, 3, 1] ∧
    Reverse ([1, 2, 3] : List Int) = some [3, 2, 1] := by
  refine ⟨?_, ?_, ?_, ?_⟩ <;> simp [Reverse, reverseGo, swapGo]

/-- Embedding of `Map` (func_utils.go): pre-sized output, `output[i] = f(input[i])`. -/
def Map (inputSlice : List α) (mapFunc : α → β) : List β := inputSlice.map mapFunc

/-- One work item of `ParallelMap`'s worker loop (func_utils.go): a worker that
claimed index `idx` from the shared channel writes `mapFunc(inputSlice[idx])`
into the shared output buffer at position `idx`. -/
def parallelWrite (inputSlice : List α) (mapFunc : α → β) (buf : List (Option β)) (idx : Nat) :
    List (Option β) :=
  match inputSlice[idx]? with
  | some x => buf.set idx (some (mapFunc x))
  | none => buf

/-- Embedding of `ParallelMap` (func_utils.go).  The output buffer is pre-sized
to `len(inputSlice)` with unwritten entries modelled as `none`.  The index
channel hands each index `0..len-1` to exactly one worker, and each completed
work item writes a disjoint buffer slot, so a whole concurrent run is the fold
of the per-index writes over `schedule`, the (arbitrary) global completion
order of the claimed indices.  A run of the real code corresponds to a
`schedule` that is a permutation of `0..len-1`: every index is sent once on
the channel and claimed by exactly one worker, so `mapFunc` is invoked at
most once per element. -/
def ParallelMap (inputSlice : List α) (mapFunc : α → β) (schedule : List Nat) : List (Option β) :=
  schedule.foldl (parallelWrite inputSlice mapFunc) (List.replicate inputSlice.length none)

lemma parallelWrite_length (inputSlice : List α) (mapFunc : α → β) (buf : List (Option β))
    (idx : Nat) : (parallelWrite inputSlice mapFunc buf idx).length = buf.length := by
  unfold parallelWrite
  cases h : inputSlice[idx]? <;> simp

lemma parallelFold_getElem? (inputSlice : List α) (mapFunc : α → β) :
    ∀ (schedule : List Nat) (buf : List (Option β)), buf.length = inputSlice.length →
      ∀ j, (schedule.foldl (parallelWrite inputSlice mapFunc) buf)[j]? =
        if j ∈ schedule ∧ j < inputSlice.length then
          (inputSlice[j]?).map (fun x => some (mapFunc x))
        else buf[j]? := by
  intro schedule
  induction schedule with
  | nil => intro buf _ j; simp
  | cons i rest ih =>
    intro buf hlen j
    rw [List.foldl_cons, ih _ (by rw [parallelWrite_length]; exact hlen)]
    by_cases hrest : j ∈ rest ∧ j < inputSlice.length
    · rw [if_pos hrest, if_pos ⟨List.mem_cons_of_mem i hrest.1, hrest.2⟩]
    · rw [if_neg hrest]
      by_cases hij : j = i
      · subst hij
        by_cases hj : j < inputSlice.length
        · rw [if_pos ⟨List.mem_cons_self j rest, hj⟩]
          rw [parallelWrite, List.getElem?_eq_getElem hj]
          exact List.getElem?_set_self (by omega)
        · rw [if_neg (fun hc => hj hc.2)]
          have h1 : (parallelWrite inputSlice mapFunc buf j).length ≤ j := by
            rw [parallelWrite_length]; omega
          have h2 : buf.length ≤ j := by omega
          rw [List.getElem?_eq_none h1, List.getElem?_eq_none h2]
      · rw [if_neg (fun hc => (List.mem_cons.mp hc.1).elim hij (fun hm => hrest ⟨hm, hc.2⟩))]
        rw [parallelWrite]
        cases hx : inputSlice[i]? with
        | none => rfl
        | some x => exact List.getElem?_set_ne (fun h => hij h.symm)

/-- C1: for any schedule in which each input index is claimed and completed
exactly once — i.e. any permutation of `0..len-1`, covering every possible
worker completion order — `ParallelMap` fills every output slot `i` with
`mapFunc(inputSlice[i])`, so the run result is extensionally the sequential
`Map`, for every input length from 0 upward. -/
theorem C1_parallelMap_refines_map (inputSlice : List α) (mapFunc : α → β) (schedule : List Nat)
    (h : schedule.Perm (List.range inputSlice.length)) :
    ParallelMap inputSlice mapFunc schedule = (Map inputSlice mapFunc).map some := by
  apply List.ext_getElem?
  intro j
  rw [ParallelMap, parallelFold_getElem? _ _ _ _ (by simp)]
  by_cases hj : j < inputSlice.length
  · rw [if_pos ⟨h.mem_iff.mpr (List.mem_range.mpr hj), hj⟩]
    cases hx : inputSlice[j]? <;> simp [Map, hx]
  · rw [if_neg (fun hc => hj hc.2)]
    have h1 : (List.replicate inputSlice.length (none : Option β)).length ≤ j := by
      simp; omega
    have h2 : ((Map inputSlice mapFunc).map some).length ≤ j := by
      simp [Map]; omega
    rw [List.getElem?_eq_none h1, List.getElem?_eq_none h2]

/-- Witness for C1 at a concrete input: three elements completed in the
out-of-order schedule `[2, 0, 1]`. -/
theorem C1_parallelMap_refines_map_witness :
    ParallelMap [10, 20, 30] (fun n : Int => n + 1) [2, 0, 1] = [some 11, some 21, some 31] := by
  have h := C1_parallelMap_refines_map [10, 20, 30] (fun n : Int => n + 1) [2, 0, 1] (by decide)
  simpa [Map] using h

/-- The filtering loop of `RemoveElement` (func_utils.go): `count` matches have
been removed so far; a match is skipped (removed) while `limit == -1` (remove
all) or `count < limit`, and every other element is kept, in order. -/
def removeGo [DecidableEq α] (element : α) (limit : Int) : List α → Int → List α
  | [], _ => []
  | e :: rest, count =>
    if e = element ∧ (limit = -1 ∨ count < limit) then removeGo element limit rest (count + 1)
    else e :: removeGo element limit rest count

/-- Embedding of `RemoveElement` (func_utils.go).  `occurrencesToDelete` is the
`*int` argument, `none` modelling a nil pointer.  An empty slice returns
unchanged; a non-nil pointer to a value `<= 0` returns the slice unchanged;
a nil pointer sets `limit = -1` (remove all occurrences); otherwise
`limit = *occurrencesToDelete`. -/
def RemoveElement [DecidableEq α] (slice : List α) (element : α)
    (occurrencesToDelete : Option Int) : List α :=
  if slice.length = 0 then slice
  else
    match occurrencesToDelete with
    | some k => if k ≤ 0 then slice else removeGo element k slice 0
    | none => removeGo element (-1) slice 0

lemma removeGo_all [DecidableEq α] (a : α) :
    ∀ (l : List α) (c : Int), removeGo a (-1) l c = l.filter (fun e => decide (e ≠ a)) := by
  intro l
  induction l with
  | nil => intro c; rfl
  | cons e rest ih =>
    intro c
    by_cases he : e = a
    · subst he
      simp [removeGo, ih]
    · simp [removeGo, he, ih]

lemma removeGo_stop [DecidableEq α] (a : α) :
    ∀ (l : List α) (limit c : Int), limit ≠ -1 → limit ≤ c → removeGo a limit l c = l := by
  intro l
  induction l with
  | nil => intro limit c _ _; rfl
  | cons e rest ih =>
    intro limit c h1 h2
    rw [removeGo, if_neg (fun hc => hc.2.elim h1 (fun hlt => absurd hlt (by omega))), ih _ _ h1 h2]

lemma removeGo_erase [DecidableEq α] (a : α) :
    ∀ (l : List α) (limit c : Int), 0 ≤ c → c < limit →
      removeGo a limit l c = removeGo a limit (l.erase a) (c + 1) := by
  intro l
  induction l with
  | nil => intro limit c _ _; rfl
  | cons e rest ih =>
    intro limit c h0 hlt
    by_cases he : e = a
    · subst he
      rw [List.erase_cons_head, removeGo, if_pos ⟨rfl, Or.inr hlt⟩]
    · rw [List.erase_cons_tail (by simpa using he), removeGo,
        if_neg (fun hc => he hc.1), removeGo, if_neg (fun hc => he hc.1),
        ih _ _ h0 hlt]

lemma removeGo_iterate [DecidableEq α] (a : α) :
    ∀ (n : Nat) (limit : Int) (l : List α) (c : Int), 0 ≤ c → c + n = limit →
      removeGo a limit l c = (fun s => s.erase a)^[n] l := by
  intro n
  induction n with
  | zero =>
    intro limit l c h0 hc
    rw [Function.iterate_zero_apply]
    exact removeGo_stop a l limit c (by omega) (by omega)
  | succ n ih =>
    intro limit l c h0 hc
    rw [removeGo_erase a l limit c h0 (by omega), Function.iterate_succ_apply]
    exact ih limit (l.erase a) (c + 1) (by omega) (by omega)

lemma count_iterate_erase [DecidableEq α] (a : α) :
    ∀ (n : Nat) (l : List α), ((fun s => s.erase a)^[n] l).count a = l.count a - n := by
  intro n
  induction n with
  | zero => intro l; simp
  | succ n ih =>
    intro l
    rw [Function.iterate_succ_apply, ih, List.count_erase_self]
    omega

lemma iterate_erase_sublist [DecidableEq α] (a : α) :
    ∀ (n : Nat) (l : List α), (fun s => s.erase a)^[n] l <+ l := by
  intro n
  induction n with
  | zero => intro l; simp
  | succ n ih =>
    intro l
    rw [Function.iterate_succ_apply]
    exact (ih (l.erase a)).trans (List.erase_sublist a l)

/-- C3: for a non-nil count `k >= 0` the result is the input with its first
`k` occurrences of the element erased (so exactly `max(0, count - k)` remain,
the removals are the leftmost matches, and the result is a sublist of the
input, i.e. the relative order of the kept elements is unchanged); for a nil
pointer all occurrences are removed.  But the claim that a NEGATIVE non-nil
count also removes all occurrences is false: the code returns the slice
unchanged whenever the pointed-to value is `<= 0` — first conjunct:
`RemoveElement [1, 5, 5] 5 (-1) = [1, 5, 5]`, while the repository's own test
`TestRemoveElement_AllOcurrences` expects `-1` to remove every occurrence. -/
theorem C3_removeElement_spec :
    RemoveElement ([1, 5, 5] : List Int) 5 (some (-1)) = [1, 5, 5] ∧
    (∀ (α : Type) [DecidableEq α] (l : List α) (a : α) (k : Nat),
      RemoveElement l a (some (k : Int)) = (fun s => s.erase a)^[k] l ∧
      (RemoveElement l a (some (k : Int))).count a = l.count a - k ∧
      RemoveElement l a (some (k : Int)) <+ l) ∧
    (∀ (α : Type) [DecidableEq α] (l : List α) (a : α),
      RemoveElement l a none = l.filter (fun e => decide (e ≠ a)) ∧
      (RemoveElement l a none).count a = 0 ∧
      RemoveElement l a none <+ l) := by
  refine ⟨rfl, ?_, ?_⟩
  · intro α _ l a k
    have heq : RemoveElement l a (some (k : Int)) = (fun s => s.erase a)^[k] l := by
      by_cases hl : l = []
      · subst hl
        rw [Function.iterate_fixed (by simp)]
        simp [RemoveElement]
      · match k with
        | 0 => simp [RemoveElement]
        | Nat.succ n =>
          rw [RemoveElement, if_neg (by simp [List.length_eq_zero, hl])]
          rw [if_neg (by push_cast; omega)]
          exact removeGo_iterate a (n + 1) ((n : Int) + 1) l 0 (by omega) (by push_cast; omega)
    refine ⟨heq, ?_, ?_⟩
    · rw [heq, count_iterate_erase]
    · rw [heq]; exact iterate_erase_sublist a k l
  · intro α _ l a
    have heq : RemoveElement l a none = l.filter (fun e => decide (e ≠ a)) := by
      by_cases hl : l = []
      · subst hl; rfl
      · rw [RemoveElement, if_neg (by simp [List.length_eq_zero, hl])]
        exact removeGo_all a l 0
    refine ⟨heq, ?_, ?_⟩
    · rw [heq, List.count_eq_zero]
      intro hc
      have := (List.mem_filter.mp hc).2
      simp at this
    · rw [heq]; exact List.filter_sublist l

/-- The chunking loop of `Chunk` (func_utils.go) for a positive chunk size:
`for i := 0; i < len(slice); i += chunkSize` appends `slice[i:end]` where
`end = min(i + chunkSize, len(slice))`; equivalently, cut off the first
`chunkSize` elements and recurse on the rest. -/
def chunksPos (chunkSize : Nat) (slice : List α) : List (List α) :=
  if _h : 0 < chunkSize ∧ 0 < slice.length then
    slice.take chunkSize :: chunksPos chunkSize (slice.drop chunkSize)
  else []
termination_by slice.length
decreasing_by
  simp only [List.length_drop]
  omega

/-- Embedding of `Chunk` (func_utils.go): chunk size `<= 0` or an empty slice
gives an empty result; otherwise consecutive chunks of `chunkSize` elements,
the last chunk keeping whatever remains. -/
def Chunk (slice : List α) (chunkSize : Int) : List (List α) :=
  if chunkSize ≤ 0 ∨ slice.length = 0 then [] else chunksPos chunkSize.toNat slice

lemma chunksPos_bounded (k : Nat) (hk : 0 < k) :
    ∀ (n : Nat) (slice : List α), slice.length ≤ n →
      (chunksPos k slice).flatten = slice ∧
      (∀ c ∈ chunksPos k slice, c ≠ [] ∧ c.length ≤ k) ∧
      (∀ i, i + 1 < (chunksPos k slice).length →
        ((chunksPos k slice).getD i []).length = k) ∧
      (slice ≠ [] → ∃ c, (chunksPos k slice).getLast? = some c ∧
        1 ≤ c.length ∧ c.length ≤ k) := by
  intro n
  induction n with
  | zero =>
    intro slice hlen
    have hs : slice = [] := List.length_eq_zero.mp (by omega)
    subst hs
    rw [chunksPos, dif_neg (by simp)]
    simp
  | succ n ih =>
    intro slice hlen
    by_cases hs : slice = []
    · subst hs
      rw [chunksPos, dif_neg (by simp)]
      simp
    · have hpos : 0 < slice.length := List.length_pos.mpr hs
      have hdrop : (slice.drop k).length ≤ n := by
        rw [List.length_drop]
        omega
      obtain ⟨ihflat, ihmem, ihlen, ihlast⟩ := ih (slice.drop k) hdrop
      have hstep : chunksPos k slice = slice.take k :: chunksPos k (slice.drop k) := by
        rw [chunksPos, dif_pos ⟨hk, hpos⟩]
      have htake_ne : slice.take k ≠ [] := by
        intro hnil
        have hlen0 := congrArg List.length hnil
        rw [List.length_take, List.length_nil] at hlen0
        omega
      refine ⟨?_, ?_, ?_, ?_⟩
      · rw [hstep, List.flatten_cons, ihflat, List.take_append_drop]
      · intro c hc
        rw [hstep] at hc
        rcases List.mem_cons.mp hc with rfl | hc
        · exact ⟨htake_ne, by simp⟩
        · exact ihmem c hc
      · intro i hi
        rw [hstep] at hi ⊢
        match i with
        | 0 =>
          have hrest : chunksPos k (slice.drop k) ≠ [] := by
            intro hnil
            rw [List.length_cons, hnil] at hi
            simp at hi
          have hklt : k < slice.length := by
            by_contra hge
            have hdrop_nil : slice.drop k = [] := List.drop_eq_nil_of_le (by omega)
            rw [chunksPos, dif_neg (by rw [hdrop_nil]; simp)] at hrest
            exact hrest rfl
          rw [List.getD_cons_zero, List.length_take]
          omega
        | Nat.succ i =>
          rw [List.getD_cons_succ]
          apply ihlen
          rw [List.length_cons] at hi
          omega
      · intro _
        rw [hstep]
        by_cases hdrop_nil : slice.drop k = []
        · have hrest : chunksPos k (slice.drop k) = [] := by
            rw [chunksPos, dif_neg (by rw [hdrop_nil]; simp)]
          rw [hrest]
          refine ⟨slice.take k, rfl, ?_, by simp⟩
          have := List.length_pos.mpr htake_ne
          omega
        · obtain ⟨c, hlast, h1, h2⟩ := ihlast hdrop_nil
          have hrest_ne : chunksPos k (slice.drop k) ≠ [] := by
            intro hnil
            rw [hnil] at hlast
            simp at hlast
          obtain ⟨r0, rest, hr⟩ := List.exists_cons_of_ne_nil hrest_ne
          rw [hr] at hlast ⊢
          rw [List.getLast?_cons_cons]
          exact ⟨c, hlast, h1, h2⟩

/-- C5: `Chunk(slice, size)` returns an empty result when `size <= 0` or the
slice is empty; for a positive size the concatenation of the chunks in order
reconstructs the slice, every chunk except possibly the last has length
exactly `size`, and the last chunk has length between 1 and `size`. -/
theorem C5_chunk_spec (slice : List α) (k : Int) :
    (k ≤ 0 ∨ slice = [] → Chunk slice k = []) ∧
    (0 < k →
      (Chunk slice k).flatten = slice ∧
      (∀ i, i + 1 < (Chunk slice k).length → ((Chunk slice k).getD i []).length = k.toNat) ∧
      (slice ≠ [] → ∃ c, (Chunk slice k).getLast? = some c ∧
        1 ≤ c.length ∧ c.length ≤ k.toNat)) := by
  constructor
  · intro h
    rw [Chunk, if_pos (h.imp id (fun hs => by rw [hs]; rfl))]
  · intro hk
    by_cases hs : slice = []
    · subst hs
      refine ⟨by simp [Chunk], ?_, fun h => absurd rfl h⟩
      intro i hi
      simp [Chunk] at hi
    · have hchunk : Chunk slice k = chunksPos k.toNat slice := by
        rw [Chunk, if_neg]
        intro hc
        rcases hc with hle | hlen
        · omega
        · exact hs (List.length_eq_zero.mp hlen)
      have hktoNat : 0 < k.toNat := by omega
      obtain ⟨hflat, _, hlen, hlast⟩ :=
        chunksPos_bounded k.toNat hktoNat slice.length slice le_rfl
      rw [hchunk]
      exact ⟨hflat, hlen, hlast⟩

/-- Witness for C5 at concrete inputs, including the spec's own example
`Chunk([1,2,3,4,5], 2) == [[1,2],[3,4],[5]]`. -/
theorem C5_chunk_spec_witness :
    Chunk ([1, 2, 3, 4, 5] : List Int) 2 = [[1, 2], [3, 4], [5]] ∧
    (Chunk ([1, 2, 3, 4, 5] : List Int) 2).flatten = [1, 2, 3, 4, 5] ∧
    Chunk ([1, 2, 3] : List Int) 0 = [] := by
  refine ⟨?_, ((C5_chunk_spec ([1, 2, 3, 4, 5] : List Int) 2).2 (by norm_num)).1,
    (C5_chunk_spec ([1, 2, 3] : List Int) 0).1 (Or.inl le_rfl)⟩
  simp [Chunk, chunksPos]

/-- The deduplication loop of `Distinct` (func_utils.go): `seenItems` is the
membership set of already-kept elements (a Go `map[I]struct` value used only
for membership tests, modelled as the list of its keys); an unseen element is
kept in place and marked seen, a seen element is skipped. -/
def distinctGo [DecidableEq α] (seenItems : List α) : List α → List α
  | [] => []
  | item :: rest =>
    if item ∈ seenItems then distinctGo seenItems rest
    else item :: distinctGo (item :: seenItems) rest

/-- Embedding of `Distinct` (func_utils.go). -/
def Distinct [DecidableEq α] (slice : List α) : List α := distinctGo [] slice

lemma distinctGo_mem [DecidableEq α] (l : List α) :
    ∀ (seen : List α) (x : α), x ∈ distinctGo seen l ↔ x ∈ l ∧ x ∉ seen := by
  induction l with
  | nil => intro seen x; simp [distinctGo]
  | cons item rest ih =>
    intro seen x
    by_cases hm : item ∈ seen
    · rw [distinctGo, if_pos hm, ih]
      constructor
      · exact fun h => ⟨List.mem_cons_of_mem _ h.1, h.2⟩
      · rintro ⟨h1, h2⟩
        rcases List.mem_cons.mp h1 with rfl | h1
        · exact absurd hm h2
        · exact ⟨h1, h2⟩
    · rw [distinctGo, if_neg hm]
      constructor
      · intro h
        rcases List.mem_cons.mp h with rfl | h
        · exact ⟨List.mem_cons_self _ _, hm⟩
        · obtain ⟨h1, h2⟩ := (ih _ _).mp h
          exact ⟨List.mem_cons_of_mem _ h1,
            fun hs => h2 (List.mem_cons_of_mem _ hs)⟩
      · rintro ⟨h1, h2⟩
        rcases List.mem_cons.mp h1 with rfl | h1
        · exact List.mem_cons_self _ _
        · by_cases hxi : x = item
          · subst hxi; exact List.mem_cons_self _ _
          · exact List.mem_cons_of_mem _ ((ih _ _).mpr
              ⟨h1, fun hs => (List.mem_cons.mp hs).elim hxi h2⟩)

lemma distinctGo_nodup [DecidableEq α] (l : List α) :
    ∀ seen : List α, (distinctGo seen l).Nodup := by
  induction l with
  | nil => intro seen; simp [distinctGo]
  | cons item rest ih =>
    intro seen
    by_cases hm : item ∈ seen
    · rw [distinctGo, if_pos hm]; exact ih seen
    · rw [distinctGo, if_neg hm]
      refine List.nodup_cons.mpr ⟨?_, ih _⟩
      intro hmem
      exact ((distinctGo_mem rest _ item).mp hmem).2 (List.mem_cons_self _ _)

lemma distinctGo_sublist [DecidableEq α] (l : List α) :
    ∀ seen : List α, distinctGo seen l <+ l := by
  induction l with
  | nil => intro seen; simp [distinctGo]
  | cons item rest ih =>
    intro seen
    by_cases hm : item ∈ seen
    · rw [distinctGo, if_pos hm]; exact (ih seen).cons item
    · rw [distinctGo, if_neg hm]; exact (ih _).cons₂ item

lemma distinctGo_pairwise [DecidableEq α] (l : List α) :
    ∀ seen : List α,
      (distinctGo seen l).Pairwise (fun a b => l.indexOf a < l.indexOf b) := by
  induction l with
  | nil => intro seen; simp [distinctGo]
  | cons item rest ih =>
    intro seen
    by_cases hm : item ∈ seen
    · rw [distinctGo, if_pos hm]
      refine (ih seen).imp_of_mem ?_
      intro a b ha hb hab
      have hane : item ≠ a := by
        intro he
        exact ((distinctGo_mem rest seen a).mp ha).2 (he ▸ hm)
      have hbne : item ≠ b := by
        intro he
        exact ((distinctGo_mem rest seen b).mp hb).2 (he ▸ hm)
      rw [List.indexOf_cons_ne _ hane, List.indexOf_cons_ne _ hbne]
      omega
    · rw [distinctGo, if_neg hm]
      refine List.pairwise_cons.mpr ⟨?_, ?_⟩
      · intro b hb
        have hbne : item ≠ b := by
          intro he
          exact ((distinctGo_mem rest _ b).mp hb).2 (he ▸ List.mem_cons_self _ _)
        rw [List.indexOf_cons_self, List.indexOf_cons_ne _ hbne]
        omega
      · refine (ih (item :: seen)).imp_of_mem ?_
        intro a b ha hb hab
        have hane : item ≠ a := by
          intro he
          exact ((distinctGo_mem rest _ a).mp ha).2 (he ▸ List.mem_cons_self _ _)
        have hbne : item ≠ b := by
          intro he
          exact ((distinctGo_mem rest _ b).mp hb).2 (he ▸ List.mem_cons_self _ _)
        rw [List.indexOf_cons_ne _ hane, List.indexOf_cons_ne _ hbne]
        omega

lemma distinctGo_of_nodup [DecidableEq α] (l : List α) :
    ∀ seen : List α, (∀ x ∈ l, x ∉ seen) → l.Nodup → distinctGo seen l = l := by
  induction l with
  | nil => intro seen _ _; rfl
  | cons item rest ih =>
    intro seen hdisj hnodup
    rw [distinctGo, if_neg (hdisj item (List.mem_cons_self _ _))]
    congr 1
    refine ih (item :: seen) ?_ (List.nodup_cons.mp hnodup).2
    intro x hx hmem
    rcases List.mem_cons.mp hmem with rfl | hmem
    · exact (List.nodup_cons.mp hnodup).1 hx
    · exact hdisj x (List.mem_cons_of_mem _ hx) hmem

/-- C6: `Distinct` returns a list without duplicates; the kept elements are a
subsequence of the input with exactly the input's members, listed in strictly
increasing order of first occurrence in the input (the `Pairwise` conjunct);
and `Distinct` is idempotent. -/
theorem C6_distinct_spec [DecidableEq α] (slice : List α) :
    (Distinct slice).Nodup ∧
    Distinct slice <+ slice ∧
    (∀ x, x ∈ Distinct slice ↔ x ∈ slice) ∧
    (Distinct slice).Pairwise (fun a b => slice.indexOf a < slice.indexOf b) ∧
    Distinct (Distinct slice) = Distinct slice := by
  refine ⟨distinctGo_nodup slice [], distinctGo_sublist slice [], ?_, ?_, ?_⟩
  · intro x
    rw [Distinct, distinctGo_mem]
    simp
  · exact distinctGo_pairwise slice []
  · rw [Distinct, Distinct]
    exact distinctGo_of_nodup _ [] (fun x _ hx => (List.mem_nil_iff x).mp hx)
      (distinctGo_nodup slice [])

/-- One pass of `UnionSeq` (slicesutils1.23.go) over one input sequence with a
shared `seen` set: yields (first component) the not-yet-seen elements in their
order of appearance, marking each as seen; also returns (second component) the
updated seen set.  The consumer is taken to accept every element (`yield`
always returns true), which is how the whole yielded sequence is observed. -/
def seqYieldUnseen [DecidableEq α] (seen : List α) : List α → List α × List α
  | [] => ([], seen)
  | input :: rest =>
    if input ∈ seen then seqYieldUnseen seen rest
    else
      (input :: (seqYieldUnseen (input :: seen) rest).1,
        (seqYieldUnseen (input :: seen) rest).2)

/-- Embedding of `UnionSeq` (slicesutils1.23.go): drive the first sequence,
yielding unseen elements, then the second sequence with the same seen set. -/
def UnionSeq [DecidableEq α] (inputSeq1 inputSeq2 : List α) : List α :=
  (seqYieldUnseen [] inputSeq1).1 ++
    (seqYieldUnseen (seqYieldUnseen [] inputSeq1).2 inputSeq2).1

lemma seqYieldUnseen_fst [DecidableEq α] (l : List α) :
    ∀ seen : List α, (seqYieldUnseen seen l).1 = distinctGo seen l := by
  induction l with
  | nil => intro seen; rfl
  | cons input rest ih =>
    intro seen
    by_cases hm : input ∈ seen
    · rw [seqYieldUnseen, if_pos hm, distinctGo, if_pos hm, ih]
    · rw [seqYieldUnseen, if_neg hm, distinctGo, if_neg hm]
      simp [ih]

lemma seqYieldUnseen_snd_mem [DecidableEq α] (l : List α) :
    ∀ (seen : List α) (x : α), x ∈ (seqYieldUnseen seen l).2 ↔ x ∈ l ∨ x ∈ seen := by
  induction l with
  | nil => intro seen x; simp [seqYieldUnseen]
  | cons input rest ih =>
    intro seen x
    by_cases hm : input ∈ seen
    · rw [seqYieldUnseen, if_pos hm, ih]
      constructor
      · rintro (h | h)
        · exact Or.inl (List.mem_cons_of_mem _ h)
        · exact Or.inr h
      · rintro (h | h)
        · rcases List.mem_cons.mp h with rfl | h
          · exact Or.inr hm
          · exact Or.inl h
        · exact Or.inr h
    · rw [seqYieldUnseen, if_neg hm]
      simp only [ih, List.mem_cons]
      tauto

lemma distinctGo_congr_seen [DecidableEq α] (l : List α) :
    ∀ (s1 s2 : List α), (∀ x, x ∈ s1 ↔ x ∈ s2) → distinctGo s1 l = distinctGo s2 l := by
  induction l with
  | nil => intro s1 s2 _; rfl
  | cons item rest ih =>
    intro s1 s2 hs
    by_cases hm : item ∈ s1
    · rw [distinctGo, if_pos hm, distinctGo, if_pos ((hs item).mp hm), ih s1 s2 hs]
    · rw [distinctGo, if_neg hm, distinctGo, if_neg (fun hc => hm ((hs item).mpr hc))]
      congr 1
      refine ih _ _ ?_
      intro x
      simp only [List.mem_cons]
      exact or_congr Iff.rfl (hs x)

lemma distinctGo_append [DecidableEq α] (a : List α) :
    ∀ (b seen : List α),
      distinctGo seen (a ++ b) =
        distinctGo seen a ++ distinctGo (seqYieldUnseen seen a).2 b := by
  induction a with
  | nil => intro b seen; rfl
  | cons x xs ih =>
    intro b seen
    by_cases hm : x ∈ seen
    · rw [List.cons_append, distinctGo, if_pos hm, distinctGo, if_pos hm,
        seqYieldUnseen, if_pos hm, ih]
    · rw [List.cons_append, distinctGo, if_neg hm, distinctGo, if_neg hm,
        seqYieldUnseen, if_neg hm, ih]
      rfl

/-- C10: `UnionSeq` yields exactly the first-occurrence deduplication of the
concatenation of its two inputs: every element of either input appears exactly
once (no duplicates plus the membership equivalence), ordered by first
occurrence across the first input followed by the second (the `Pairwise`
conjunct). -/
theorem C10_unionSeq_spec [DecidableEq α] (a b : List α) :
    UnionSeq a b = Distinct (a ++ b) ∧
    (UnionSeq a b).Nodup ∧
    (∀ x, x ∈ UnionSeq a b ↔ x ∈ a ∨ x ∈ b) ∧
    (UnionSeq a b).Pairwise
      (fun x y => (a ++ b).indexOf x < (a ++ b).indexOf y) := by
  have heq : UnionSeq a b = Distinct (a ++ b) := by
    rw [UnionSeq, seqYieldUnseen_fst, seqYieldUnseen_fst, Distinct, distinctGo_append]
  refine ⟨heq, ?_, ?_, ?_⟩
  · rw [heq]; exact distinctGo_nodup _ []
  · intro x
    rw [heq, Distinct, distinctGo_mem]
    simp
  · rw [heq]; exact distinctGo_pairwise _ []

/-- Embedding of `SafeMap` (func_utils.go).  `mappingFunc` is modelled by the
`Outcome` it produces on each input; each invocation is wrapped in
`SafeExcecute` with the zero value of the output type.  On a non-nil error the
function returns `(nil, err)` (`none` models the nil slice — no partial
results); a panic escaping `SafeExcecute` (non-`error` panic value) escapes
`SafeMap` too (`Except.error`).  The second component is a ghost log of the
inputs on which `mappingFunc` was invoked, in order, used to state that no
later element is processed after a failure. -/
def SafeMap (mappingFunc : α → Outcome β) (zero : β) :
    List α → Except PanicValue (Option (List β) × Option GoError) × List α
  | [] => (.ok (some [], none), [])
  | input :: rest =>
    match SafeExcecute zero (mappingFunc input) with
    | .error p => (.error p, [input])
    | .ok (_, some e) => (.ok (none, some e), [input])
    | .ok (out, none) =>
      match SafeMap mappingFunc zero rest with
      | (.error p, log) => (.error p, input :: log)
      | (.ok (none, e), log) => (.ok (none, e), input :: log)
      | (.ok (some outs, e), log) => (.ok (some (out :: outs), e), input :: log)

/-- Embedding of `SafeReduce` (func_utils.go), with the accumulator threaded
explicitly.  On error it returns the pair `(accumAux, err)` produced by
`SafeExcecute` (the zero value if the reduce function panicked with an `error`
value, its returned accumulator on a normal error).  The ghost log records
the `(accumulator, input)` argument pairs of the invocations performed. -/
def SafeReduce (reduceFunc : β → α → Outcome β) (zero : β) (accumulator : β) :
    List α → Except PanicValue (β × Option GoError) × List (β × α)
  | [] => (.ok (accumulator, none), [])
  | input :: rest =>
    match SafeExcecute zero (reduceFunc accumulator input) with
    | .error p => (.error p, [(accumulator, input)])
    | .ok (accumAux, some e) => (.ok (accumAux, some e), [(accumulator, input)])
    | .ok (accumAux, none) =>
      match SafeReduce reduceFunc zero accumAux rest with
      | (r, log) => (r, (accumulator, input) :: log)

/-- Embedding of `SafeFind` (func_utils.go).  `zero` is the zero value of the
element type (the named return `foundItem`, returned on error and on a miss).
The ghost log records the inputs on which `findFunc` was invoked. -/
def SafeFind (findFunc : α → Outcome Bool) (zero : α) :
    List α → Except PanicValue (α × Bool × Option GoError) × List α
  | [] => (.ok (zero, false, none), [])
  | input :: rest =>
    match SafeExcecute false (findFunc input) with
    | .error p => (.error p, [input])
    | .ok (_, some e) => (.ok (zero, false, some e), [input])
    | .ok (true, none) => (.ok (input, true, none), [input])
    | .ok (false, none) =>
      match SafeFind findFunc zero rest with
      | (r, log) => (r, input :: log)

/-- C4: evaluations of `SafeMap`, `SafeReduce` and `SafeFind` on `[1, 2, 3, 4]`
(resp. `[1, 2, 3]`) with element functions failing at element 2.  In each
conjunct the invocation log shows processing stopped at the failing element —
elements after it are never passed to the function — and `SafeMap` returns
`nil` (no partial results) with the error.  This holds when the function
returns a non-nil error or panics with an `error` value; but when it panics
with a non-`error` value (third, seventh and ninth conjuncts) the error is NOT
returned to the caller: the recovery's `r.(error)` assertion re-panics and the
fault escapes, contradicting the claim for that case.  The final conjuncts
check the error-free runs. -/
theorem C4_safe_short_circuit :
    SafeMap (fun x : Int => if x = 2 then .ret 0 (some ⟨"e2"⟩) else .ret (x * 10) none) 0
        [1, 2, 3, 4] = (.ok (none, some ⟨"e2"⟩), [1, 2]) ∧
    SafeMap (fun x : Int => if x = 2 then .fault (.errValue ⟨"p2"⟩) else .ret (x * 10) none) 0
        [1, 2, 3, 4] = (.ok (none, some ⟨"p2"⟩), [1, 2]) ∧
    SafeMap (fun x : Int => if x = 2 then .fault (.nonError "boom") else .ret (x * 10) none) 0
        [1, 2, 3, 4] =
      (.error (.errValue ⟨"interface conversion: interface is not error: boom"⟩), [1, 2]) ∧
    SafeMap (fun x : Int => .ret (x * 10) none) 0 [1, 2, 3] =
      (.ok (some [10, 20, 30], none), [1, 2, 3]) ∧
    SafeReduce (fun acc x : Int => if x = 2 then .ret acc (some ⟨"e2"⟩) else .ret (acc + x) none)
        0 0 [1, 2, 3] = (.ok (1, some ⟨"e2"⟩), [(0, 1), (1, 2)]) ∧
    SafeReduce (fun acc x : Int => if x = 2 then .fault (.errValue ⟨"p2"⟩) else .ret (acc + x) none)
        0 0 [1, 2, 3] = (.ok (0, some ⟨"p2"⟩), [(0, 1), (1, 2)]) ∧
    SafeReduce (fun acc x : Int => if x = 2 then .fault (.nonError "boom") else .ret (acc + x) none)
        0 0 [1, 2, 3] =
      (.error (.errValue ⟨"interface conversion: interface is not error: boom"⟩),
        [(0, 1), (1, 2)]) ∧
    SafeReduce (fun acc x : Int => .ret (acc + x) none) 0 0 [1, 2, 3] =
      (.ok (6, none), [(0, 1), (1, 2), (3, 3)]) ∧
    SafeFind (fun x : Int => if x = 2 then .ret false (some ⟨"e2"⟩) else .ret false none) 0
        [1, 2, 3] = (.ok (0, false, some ⟨"e2"⟩), [1, 2]) ∧
    SafeFind (fun x : Int => if x = 2 then .fault (.nonError "boom") else .ret false none) 0
        [1, 2, 3] =
      (.error (.errValue ⟨"interface conversion: interface is not error: boom"⟩), [1, 2]) ∧
    SafeFind (fun x : Int => .ret (decide (x = 2)) none) 0 [1, 2, 3] =
      (.ok (2, true, none), [1, 2]) :=
  ⟨rfl, rfl, rfl, rfl, rfl, rfl, rfl, rfl, rfl, rfl, rfl⟩

/-- Embedding of `SafeMapSeq` (slicesutils1.23.go), driven by a consumer that
accepts every element (`yield` always returns true); the result collects the
yielded outputs.  On a non-nil error from the wrapped mapping function the
producer returns — the sequence simply ends, with no error delivered to the
consumer; a panic escaping `SafeExcecute` propagates to the consumer
(`Except.error`). -/
def SafeMapSeq (mapFunc : α → Outcome β) (zero : β) : List α → Except PanicValue (List β)
  | [] => .ok []
  | input :: rest =>
    match SafeExcecute zero (mapFunc input) with
    | .error p => .error p
    | .ok (_, some _) => .ok []
    | .ok (out, none) =>
      match SafeMapSeq mapFunc zero rest with
      | .error p => .error p
      | .ok outs => .ok (out :: outs)

/-- C9: with the mapping function failing at element 2, `SafeMapSeq` over
`[1, 2, 3]` yields exactly `[10]` — it stops before yielding the failing
element, skips all later elements, and produces the very same observation as
the truncated input `[1]` (third conjunct), so the consumer cannot tell the
error stop from normal exhaustion.  The same holds when the function panics
with an `error` value (fourth conjunct).  But when it panics with a
non-`error` value the fault is delivered to the consumer instead of a silent
stop (fifth conjunct), the `SafeExcecute` recovery having re-panicked on its
`r.(error)` type assertion. -/
theorem C9_safeMapSeq_silent_stop :
    SafeMapSeq (fun x : Int => if x = 2 then .ret 0 (some ⟨"e2"⟩) else .ret (x * 10) none) 0
        [1, 2, 3] = .ok [10] ∧
    SafeMapSeq (fun x : Int => if x = 2 then .ret 0 (some ⟨"e2"⟩) else .ret (x * 10) none) 0
        [1] = .ok [10] ∧
    SafeMapSeq (fun x : Int => if x = 2 then .ret 0 (some ⟨"e2"⟩) else .ret (x * 10) none) 0
        [1, 2, 3] =
      SafeMapSeq (fun x : Int => if x = 2 then .ret 0 (some ⟨"e2"⟩) else .ret (x * 10) none) 0
        [1] ∧
    SafeMapSeq (fun x : Int => if x = 2 then .fault (.errValue ⟨"p2"⟩) else .ret (x * 10) none) 0
        [1, 2, 3] = .ok [10] ∧
    SafeMapSeq (fun x : Int => if x = 2 then .fault (.nonError "boom") else .ret (x * 10) none) 0
        [1, 2, 3] =
      .error (.errValue ⟨"interface conversion: interface is not error: boom"⟩) ∧
    SafeMapSeq (fun x : Int => .ret (x * 10) none) 0 [1, 2, 3] = .ok [10, 20, 30] :=
  ⟨rfl, rfl, rfl, rfl, rfl, rfl⟩
